import Mathlib

/-!
Verification of the interval-scanning cursor of `src/curves/src/span_cursor.rs`
(repository jneem/scribble).

The Rust code is shallowly embedded:
* `Span` mirrors the Rust struct (the field `end` is a Lean keyword, so it is
  called `stop` here);
* the Rust type `MaybeInfinite<T>` (an `Option` whose `None` sorts *above*
  every `Some`) is modelled by `WithTop`, whose order is exactly that;
* the `Vec`s are Lean lists; the index-walking `while` loops of `advance_to`
  are rendered with `takeWhile` over `drop`/`take` exactly as they scan;
* `slice::binary_search_by_key` is rendered by the textbook two-pointer loop
  it implements (`bsLoop`), with a fuel argument so that it is structurally
  recursive (the fuel is always sufficient because the gap shrinks at every
  probe).
-/

namespace SpanCursor

/-- Model of the Rust struct `Span<T, Id>`; `stop` models the field `end`
(`end` is a Lean keyword), with `none` meaning an open-ended span. -/
structure Span (α : Type) (ι : Type) where
  start : α
  stop : Option α
  id : ι
deriving DecidableEq

variable {α : Type} [LinearOrder α] {ι : Type} [DecidableEq ι]

/-- `MaybeInfinite::from(x)`: an absent end plays the role of `+∞`.
`WithTop α` has exactly the order of the Rust `MaybeInfinite<T>`:
`Finite x ≤ Finite y ↔ x ≤ y` and `Finite x ≤ Infinite` always. -/
def maybeInfinite (x : Option α) : WithTop α :=
  match x with
  | none => ⊤
  | some y => (y : WithTop α)

/-- `Span::is_active`: the span overlaps `[start_time, end_time]`.
Rust: `self.start <= end_time && MaybeInfinite::from(self.end) >= start_time`. -/
def Span.is_active (sp : Span α ι) (start_time end_time : α) : Bool :=
  decide (sp.start ≤ end_time) && decide ((start_time : WithTop α) ≤ maybeInfinite sp.stop)

/-- The comparison key used by `spans_start.sort_by_key(|sp| sp.start)`. -/
def leStart (a b : Span α ι) : Prop := a.start ≤ b.start

/-- The comparison key used by
`spans_end.sort_by_key(|sp| MaybeInfinite::from(sp.end))`. -/
def leEnd (a b : Span α ι) : Prop := maybeInfinite a.stop ≤ maybeInfinite b.stop

instance : DecidableRel (leStart (α := α) (ι := ι)) :=
  fun a b => inferInstanceAs (Decidable (a.start ≤ b.start))

instance : DecidableRel (leEnd (α := α) (ι := ι)) :=
  fun a b => inferInstanceAs (Decidable (maybeInfinite a.stop ≤ maybeInfinite b.stop))

instance : IsTotal (Span α ι) leStart := ⟨fun a b => le_total a.start b.start⟩

instance : IsTrans (Span α ι) leStart := ⟨fun _ _ _ h h' => le_trans h h'⟩

instance : IsTotal (Span α ι) leEnd :=
  ⟨fun a b => le_total (maybeInfinite a.stop) (maybeInfinite b.stop)⟩

instance : IsTrans (Span α ι) leEnd := ⟨fun _ _ _ h h' => le_trans h h'⟩

/-- `spans_start.sort_by_key(|sp| sp.start)` (a comparison sort producing a
`leStart`-sorted permutation of the input; the claims under scrutiny are all
insensitive to the order of equal keys). -/
def sortByStart (spans : List (Span α ι)) : List (Span α ι) :=
  spans.insertionSort leStart

/-- `spans_end.sort_by_key(|sp| MaybeInfinite::from(sp.end))`. -/
def sortByEnd (spans : List (Span α ι)) : List (Span α ι) :=
  spans.insertionSort leEnd

/-- The index where the `takeWhile` prefix of elements satisfying `p` ends:
the first index whose element fails `p`, or the length if none fails. -/
def firstIdxNot {κ : Type} (p : κ → Bool) (l : List κ) : ℕ :=
  (l.takeWhile p).length

/-- The loop of Rust `slice::binary_search_by` (called through
`binary_search_by_key`): maintain a half-open probe range `[left, right)`,
probe its midpoint, and narrow; `Sum.inl i` is Rust `Ok(i)` (a hit),
`Sum.inr i` is Rust `Err(i)` (the insertion point).  The `fuel` argument only
serves structural recursion; `binarySearchByKey` passes enough fuel that the
exhausted-fuel branch is never taken (the probe range shrinks every probe).
The probe index `mid` is always `< keys.length`, so the `getD` default is
never used. -/
def bsLoop {κ : Type} [LinearOrder κ] (keys : List κ) (target : κ) :
    ℕ → ℕ → ℕ → ℕ ⊕ ℕ
  | 0, left, _ => Sum.inr left
  | fuel + 1, left, right =>
    if left < right then
      let mid := left + (right - left) / 2
      let k := keys.getD mid target
      if k < target then bsLoop keys target fuel (mid + 1) right
      else if target < k then bsLoop keys target fuel left mid
      else Sum.inl mid
    else Sum.inr left

/-- Rust `keys.binary_search_by_key(&target, ...)` over a list of keys. -/
def binarySearchByKey {κ : Type} [LinearOrder κ] (keys : List κ) (target : κ) : ℕ ⊕ ℕ :=
  bsLoop keys target (keys.length + 1) 0 keys.length

/-- The `Ok` fix-up loop of `reset_next_start_idx`:
`while i < len && keys[i] == cur { i += 1 }` — skip forward over the run of
keys equal to `target` starting at `i`. -/
def skipRunFwd {κ : Type} [DecidableEq κ] (keys : List κ) (target : κ) (i : ℕ) : ℕ :=
  i + firstIdxNot (fun k => decide (k = target)) (keys.drop i)

/-- The `Ok` fix-up loop of `reset_next_end_idx`:
`while i > 0 && keys[i - 1] == cur { i -= 1 }` — skip backward over the run of
keys equal to `target` ending just before `i`. -/
def skipRunBwd {κ : Type} [DecidableEq κ] (keys : List κ) (target : κ) (i : ℕ) : ℕ :=
  i - firstIdxNot (fun k => decide (k = target)) (keys.take i).reverse

/-- `Cursor::reset_next_start_idx` as a value: binary-search `spans` (sorted
by start) for `cur`, and on a hit skip forward past the equal-start run.  On
the sorted list this computes the first index with `start > cur`. -/
def resetStartIdx (spans : List (Span α ι)) (cur : α) : ℕ :=
  let keys := spans.map Span.start
  match binarySearchByKey keys cur with
  | Sum.inl i => skipRunFwd keys cur i
  | Sum.inr i => i

/-- `Cursor::reset_next_end_idx` as a value: binary-search `spans` (sorted by
end key) for `Finite cur`, and on a hit skip backward to the start of the
equal-key run.  On the sorted list this computes the first index with
`end ≥ cur` (absent ends being infinite). -/
def resetEndIdx (spans : List (Span α ι)) (cur : α) : ℕ :=
  let keys := spans.map (fun sp => maybeInfinite sp.stop)
  match binarySearchByKey keys ((cur : WithTop α)) with
  | Sum.inl i => skipRunBwd keys ((cur : WithTop α)) i
  | Sum.inr i => i

/-- Model of the Rust struct `Cursor<T, Id>`. -/
structure Cursor (α : Type) (ι : Type) where
  spans_start : List (Span α ι)
  spans_end : List (Span α ι)
  active : List (Span α ι)
  current : α × α
  next_start_idx : ℕ
  next_end_idx : ℕ

/-- `Cursor::reset_next_start_idx`. -/
def Cursor.reset_next_start_idx (c : Cursor α ι) : Cursor α ι :=
  { c with next_start_idx := resetStartIdx c.spans_start c.current.2 }

/-- `Cursor::reset_next_end_idx`. -/
def Cursor.reset_next_end_idx (c : Cursor α ι) : Cursor α ι :=
  { c with next_end_idx := resetEndIdx c.spans_end c.current.1 }

/-- `Cursor::new`.  The construction loop scans `spans_start` in order,
breaking at the first span with `start > end_time` — on the sorted list that
break is a `takeWhile` — and keeps the scanned spans whose end is `≥`
`start_time` (absent ends count as infinite). -/
def Cursor.new (spans : List (Span α ι)) (start_time end_time : α) : Cursor α ι :=
  let spans_start := sortByStart spans
  let spans_end := sortByEnd spans
  let active := (spans_start.takeWhile (fun sp => decide (sp.start ≤ end_time))).filter
    (fun sp => decide ((start_time : WithTop α) ≤ maybeInfinite sp.stop))
  let ret : Cursor α ι :=
    { spans_start := spans_start
      spans_end := spans_end
      active := active
      current := (start_time, end_time)
      next_start_idx := 0
      next_end_idx := 0 }
  ret.reset_next_start_idx.reset_next_end_idx

/-- `Cursor::empty`. -/
def Cursor.empty (time : α) : Cursor α ι :=
  { spans_start := []
    spans_end := []
    active := []
    current := (time, time)
    next_start_idx := 0
    next_end_idx := 0 }

/-- The first half of `Cursor::advance_to` (run after `current` has been
updated): if the right edge grew, walk `spans_start` from `next_start_idx`,
pushing every span with `start ≤ end_time` and advancing the index past each
(`takeWhile` of the dropped suffix renders the `while` loop); otherwise
re-derive `next_start_idx` by binary search. -/
def stepStart (c : Cursor α ι) (old_end end_time : α) : Cursor α ι :=
  if old_end < end_time then
    let admitted := (c.spans_start.drop c.next_start_idx).takeWhile
      (fun sp => decide (sp.start ≤ end_time))
    { c with active := c.active ++ admitted
             next_start_idx := c.next_start_idx + admitted.length }
  else
    c.reset_next_start_idx

/-- The second half of `Cursor::advance_to`: if the left edge grew leftward,
walk `spans_end` backward from `next_end_idx`, pushing every span whose end
(absent = infinite) is `≥ start_time` and decrementing the index (the loop
visits indices `next_end_idx - 1, next_end_idx - 2, …`, i.e. the reversed
prefix `take next_end_idx`); otherwise re-derive `next_end_idx` by binary
search.  (The Rust indexing `spans_end[next_end_idx - 1]` is within bounds
whenever `next_end_idx ≤ spans_end.len()`, which is invariant; `take` is
total in the model.) -/
def stepEnd (c : Cursor α ι) (old_start start_time : α) : Cursor α ι :=
  if start_time < old_start then
    let admitted := ((c.spans_end.take c.next_end_idx).reverse).takeWhile
      (fun sp => decide ((start_time : WithTop α) ≤ maybeInfinite sp.stop))
    { c with active := c.active ++ admitted
             next_end_idx := c.next_end_idx - admitted.length }
  else
    c.reset_next_end_idx

/-- `Cursor::advance_to`: record the new window, admit newly eligible spans
from whichever side grew (falling back to a fresh binary search on the side
that did not), then retain only the spans still overlapping the window. -/
def Cursor.advance_to (c : Cursor α ι) (start_time end_time : α) : Cursor α ι :=
  let old_start := c.current.1
  let old_end := c.current.2
  let c1 : Cursor α ι := { c with current := (start_time, end_time) }
  let c2 := stepStart c1 old_end end_time
  let c3 := stepEnd c2 old_start start_time
  { c3 with active := c3.active.filter (fun sp => sp.is_active start_time end_time) }

/-- `Cursor::active_ids`. -/
def Cursor.active_ids (c : Cursor α ι) : List ι :=
  c.active.map Span.id

/-- `Cursor::active_spans`. -/
def Cursor.active_spans (c : Cursor α ι) : List (Span α ι) :=
  c.active

/-- `Cursor::is_finished`. -/
def Cursor.is_finished (c : Cursor α ι) : Bool :=
  c.active.isEmpty && (c.next_start_idx == c.spans_start.length)

/-- The states reachable from `Cursor::new` by arbitrary `advance_to` calls
(no constraint on the windows). -/
inductive Reaches (spans : List (Span α ι)) : Cursor α ι → Prop
  | base (lo hi : α) : Reaches spans (Cursor.new spans lo hi)
  | step {c : Cursor α ι} (lo hi : α) :
      Reaches spans c → Reaches spans (c.advance_to lo hi)

/-- The states reachable from `Cursor::new` when every window passed —
including the initial one — satisfies the caller contract `low ≤ high`. -/
inductive ValidReaches (spans : List (Span α ι)) : Cursor α ι → Prop
  | base {lo hi : α} (h : lo ≤ hi) : ValidReaches spans (Cursor.new spans lo hi)
  | step {c : Cursor α ι} {lo hi : α} (h : lo ≤ hi) :
      ValidReaches spans c → ValidReaches spans (c.advance_to lo hi)

/-- A span is well formed when its interval is non-empty: a present end is
`≥` the start (an absent end always is). -/
def WellFormed (sp : Span α ι) : Prop :=
  (sp.start : WithTop α) ≤ maybeInfinite sp.stop

instance (sp : Span α ι) : Decidable (WellFormed sp) :=
  inferInstanceAs (Decidable ((sp.start : WithTop α) ≤ maybeInfinite sp.stop))

section ListLemmas

variable {κ : Type}

theorem firstIdxNot_le_length (p : κ → Bool) (l : List κ) : firstIdxNot p l ≤ l.length :=
  (l.takeWhile_sublist p).length_le

theorem firstIdxNot_true (p : κ → Bool) :
    ∀ (l : List κ) (j : ℕ) (hj : j < l.length), j < firstIdxNot p l → p (l[j]) = true := by
  intro l
  induction l with
  | nil => intro j hj; exact absurd hj (by simp)
  | cons a t ih =>
    intro j hj hlt
    by_cases h : p a = true
    · rw [firstIdxNot, List.takeWhile_cons_of_pos h, List.length_cons] at hlt
      match j with
      | 0 => exact h
      | j + 1 =>
        simp only [List.length_cons, Nat.add_lt_add_iff_right] at hj
        simp only [List.getElem_cons_succ]
        exact ih j hj (Nat.lt_of_succ_lt_succ hlt)
    · rw [firstIdxNot, List.takeWhile_cons_of_neg h] at hlt
      exact absurd hlt (by simp)

theorem drop_firstIdxNot (p : κ → Bool) (l : List κ) :
    l.drop (firstIdxNot p l) = l.dropWhile p := by
  have h := List.takeWhile_append_dropWhile (p := p) (l := l)
  calc l.drop (firstIdxNot p l)
      = (l.takeWhile p ++ l.dropWhile p).drop (l.takeWhile p).length := by rw [h]; rfl
    _ = l.dropWhile p := List.drop_left _ _

theorem take_firstIdxNot (p : κ → Bool) (l : List κ) :
    l.take (firstIdxNot p l) = l.takeWhile p := by
  have h := List.takeWhile_append_dropWhile (p := p) (l := l)
  calc l.take (firstIdxNot p l)
      = (l.takeWhile p ++ l.dropWhile p).take (l.takeWhile p).length := by rw [h]; rfl
    _ = l.takeWhile p := List.take_left _ _

theorem firstIdxNot_false (p : κ → Bool) (l : List κ) (h : firstIdxNot p l < l.length) :
    p (l[firstIdxNot p l]) = false := by
  have hd : l.drop (firstIdxNot p l) = l.dropWhile p := drop_firstIdxNot p l
  have h0 : 0 < (l.drop (firstIdxNot p l)).length := by
    rw [List.length_drop]; omega
  have h0' : 0 < (l.dropWhile p).length := by rw [← hd]; exact h0
  have hne : l.dropWhile p ≠ [] := List.ne_nil_of_length_pos h0'
  have hgl : l[firstIdxNot p l] = (l.drop (firstIdxNot p l))[0] := by
    simp
  rw [hgl, List.getElem_of_eq hd, List.getElem_zero]
  exact List.head_dropWhile_not p l _

theorem firstIdxNot_eq (p : κ → Bool) (l : List κ) (n : ℕ) (hn : n ≤ l.length)
    (h1 : ∀ (j : ℕ) (hj : j < l.length), j < n → p (l[j]) = true)
    (h2 : ∀ hn2 : n < l.length, p (l[n]) = false) :
    firstIdxNot p l = n := by
  rcases lt_trichotomy (firstIdxNot p l) n with h | h | h
  · have hf : firstIdxNot p l < l.length := lt_of_lt_of_le h hn
    have := firstIdxNot_false p l hf
    rw [h1 (firstIdxNot p l) hf h] at this
    exact absurd this (by simp)
  · exact h
  · have hnl : n < l.length := lt_of_lt_of_le h (firstIdxNot_le_length p l)
    have := firstIdxNot_true p l n hnl h
    rw [h2 hnl] at this
    exact absurd this (by simp)

theorem pairwise_getElem_le {R : κ → κ → Prop} (hrefl : ∀ a, R a a) {l : List κ}
    (hs : l.Pairwise R) {i j : ℕ} (hij : i ≤ j) (hj : j < l.length) :
    R (l[i]) (l[j]) := by
  rcases lt_or_eq_of_le hij with h | h
  · exact List.pairwise_iff_getElem.mp hs i j _ hj h
  · subst h; exact hrefl _

theorem takeWhile_eq_filter_of_pairwise {R : κ → κ → Prop} {p : κ → Bool} {l : List κ}
    (hl : l.Pairwise R) (hp : ∀ a b, R a b → p b = true → p a = true) :
    l.takeWhile p = l.filter p := by
  induction l with
  | nil => rfl
  | cons a t ih =>
    rcases List.pairwise_cons.mp hl with ⟨ha, ht⟩
    by_cases h : p a = true
    · rw [List.takeWhile_cons_of_pos h, List.filter_cons_of_pos h, ih ht]
    · rw [List.takeWhile_cons_of_neg h, List.filter_cons_of_neg h]
      symm
      rw [List.filter_eq_nil_iff]
      intro b hb hpb
      exact h (hp a b (ha b hb) hpb)

theorem dropWhile_eq_filter_not_of_pairwise {R : κ → κ → Prop} {p : κ → Bool} {l : List κ}
    (hl : l.Pairwise R) (hp : ∀ a b, R a b → p b = true → p a = true) :
    l.dropWhile p = l.filter (fun a => !(p a)) := by
  induction l with
  | nil => rfl
  | cons a t ih =>
    rcases List.pairwise_cons.mp hl with ⟨ha, ht⟩
    by_cases h : p a = true
    · rw [List.dropWhile_cons_of_pos h, List.filter_cons_of_neg (by simp [h]), ih ht]
    · rw [List.dropWhile_cons_of_neg h, List.filter_cons_of_pos (by simp [h])]
      congr 1
      symm
      rw [List.filter_eq_self]
      intro b hb
      simp only [Bool.not_eq_true']
      exact Bool.eq_false_iff.mpr (fun hpb => h (hp a b (ha b hb) hpb))

theorem countP_split (p q : κ → Bool) (l : List κ) (h : ∀ a ∈ l, q a = true → p a = true) :
    l.countP p = l.countP q + l.countP (fun a => p a && !q a) := by
  induction l with
  | nil => rfl
  | cons a t ih =>
    have ht : ∀ a ∈ t, q a = true → p a = true := fun x hx => h x (List.mem_cons_of_mem a hx)
    rw [List.countP_cons, List.countP_cons, List.countP_cons, ih ht]
    by_cases hq : q a = true
    · have hpa : p a = true := h a (List.mem_cons_self a t) hq
      simp [hq, hpa]
      omega
    · simp only [Bool.not_eq_true] at hq
      by_cases hp : p a = true
      · simp [hq, hp]
        omega
      · simp [hq, hp]

theorem getElem_idx_congr {l : List κ} {i j : ℕ} (hij : i = j) {hi : i < l.length} :
    l[i] = l[j] := by
  subst hij
  rfl

end ListLemmas

section BinarySearch

variable {κ : Type} [LinearOrder κ]

/-- Correctness of the binary-search loop on a sorted key list: a hit
(`Sum.inl`) returns an in-bounds index holding the target, and a miss
(`Sum.inr`) returns the boundary index separating the keys `< target` from
the keys `> target` (in particular no key equals the target). -/
theorem bsLoop_spec (keys : List κ) (target : κ) (hs : keys.Pairwise (· ≤ ·)) :
    ∀ (fuel left right : ℕ), right - left < fuel → left ≤ right → right ≤ keys.length →
    (∀ (j : ℕ) (hj : j < keys.length), j < left → keys[j] < target) →
    (∀ (j : ℕ) (hj : j < keys.length), right ≤ j → target < keys[j]) →
    (match bsLoop keys target fuel left right with
     | Sum.inl i => ∃ hi : i < keys.length, keys[i] = target
     | Sum.inr i => i ≤ keys.length ∧
         (∀ (j : ℕ) (hj : j < keys.length), j < i → keys[j] < target) ∧
         (∀ (j : ℕ) (hj : j < keys.length), i ≤ j → target < keys[j])) := by
  intro fuel
  induction fuel with
  | zero => intro left right hf; omega
  | succ fuel ih =>
    intro left right hf hlr hrl hL hR
    simp only [bsLoop]
    by_cases hlr2 : left < right
    · rw [if_pos hlr2]
      have hgap : 0 < right - left := by omega
      have hhalf : (right - left) / 2 < right - left := Nat.div_lt_self hgap one_lt_two
      have hmlt : left + (right - left) / 2 < right := by omega
      have hmge : left ≤ left + (right - left) / 2 := by omega
      have hmk : left + (right - left) / 2 < keys.length := lt_of_lt_of_le hmlt hrl
      have hkd : keys.getD (left + (right - left) / 2) target
          = keys[left + (right - left) / 2] := by
        rw [List.getD_eq_getElem?_getD, List.getElem?_eq_getElem hmk]
        rfl
      rw [hkd]
      by_cases h1 : keys[left + (right - left) / 2] < target
      · rw [if_pos h1]
        refine ih (left + (right - left) / 2 + 1) right (by omega) (by omega) hrl ?_ hR
        intro j hj hjlt
        rcases Nat.lt_or_ge j left with hc | hc
        · exact hL j hj hc
        · calc keys[j] ≤ keys[left + (right - left) / 2] :=
              pairwise_getElem_le (fun a => le_refl a) hs (by omega) hmk
            _ < target := h1
      · rw [if_neg h1]
        by_cases h2 : target < keys[left + (right - left) / 2]
        · rw [if_pos h2]
          refine ih left (left + (right - left) / 2) (by omega) (by omega)
            (le_of_lt hmk) hL ?_
          intro j hj hjge
          calc target < keys[left + (right - left) / 2] := h2
            _ ≤ keys[j] := pairwise_getElem_le (fun a => le_refl a) hs hjge hj
        · rw [if_neg h2]
          exact ⟨hmk, le_antisymm (not_lt.mp h2) (not_lt.mp h1)⟩
    · rw [if_neg hlr2]
      have hEq : left = right := le_antisymm hlr (not_lt.mp hlr2)
      exact ⟨by omega, hL, fun j hj hge => hR j hj (by omega)⟩

/-- The forward fix-up run of `reset_next_start_idx`: starting from any hit
of the target in a sorted key list, skipping forward over the equal-key run
lands exactly at the first index whose key exceeds the target. -/
theorem skipRunFwd_eq (keys : List κ) (target : κ) (hs : keys.Pairwise (· ≤ ·))
    (i : ℕ) (hi : i < keys.length) (hk : keys[i] = target) :
    skipRunFwd keys target i = firstIdxNot (fun k => decide (k ≤ target)) keys := by
  have hDlen : firstIdxNot (fun k => decide (k = target)) (keys.drop i)
      ≤ keys.length - i := by
    have := firstIdxNot_le_length (fun k => decide (k = target)) (keys.drop i)
    rwa [List.length_drop] at this
  symm
  apply firstIdxNot_eq
  · unfold skipRunFwd; omega
  · intro j hj hjlt
    unfold skipRunFwd at hjlt
    rcases Nat.lt_or_ge j i with hc | hc
    · have : keys[j] ≤ keys[i] :=
        pairwise_getElem_le (fun a => le_refl a) hs (le_of_lt hc) hi
      rw [hk] at this
      exact decide_eq_true this
    · have hm : j - i < firstIdxNot (fun k => decide (k = target)) (keys.drop i) := by omega
      have hm2 : j - i < (keys.drop i).length := by rw [List.length_drop]; omega
      have := firstIdxNot_true (fun k => decide (k = target)) (keys.drop i) (j - i) hm2 hm
      rw [decide_eq_true_iff] at this
      rw [List.getElem_drop] at this
      have hidx : i + (j - i) = j := by omega
      rw [getElem_idx_congr hidx] at this
      rw [this]
      exact decide_eq_true (le_refl target)
  · intro hn2
    unfold skipRunFwd at hn2 ⊢
    have hD : firstIdxNot (fun k => decide (k = target)) (keys.drop i)
        < (keys.drop i).length := by rw [List.length_drop]; omega
    have hfal := firstIdxNot_false (fun k => decide (k = target)) (keys.drop i) hD
    rw [decide_eq_false_iff_not] at hfal
    rw [List.getElem_drop] at hfal
    have hle : keys[i]
        ≤ keys[i + firstIdxNot (fun k => decide (k = target)) (keys.drop i)] :=
      pairwise_getElem_le (fun a => le_refl a) hs (by omega) (by omega)
    rw [hk] at hle
    have : target < keys[i + firstIdxNot (fun k => decide (k = target)) (keys.drop i)] :=
      lt_of_le_of_ne hle (fun hEq => hfal hEq.symm)
    exact decide_eq_false (not_le.mpr this)

/-- The backward fix-up run of `reset_next_end_idx`: starting from any hit of
the target in a sorted key list, skipping backward over the equal-key run
lands exactly at the first index whose key is `≥` the target. -/
theorem skipRunBwd_eq (keys : List κ) (target : κ) (hs : keys.Pairwise (· ≤ ·))
    (i : ℕ) (hi : i < keys.length) (hk : keys[i] = target) :
    skipRunBwd keys target i = firstIdxNot (fun k => decide (k < target)) keys := by
  have hrevlen : ((keys.take i).reverse).length = i := by
    rw [List.length_reverse, List.length_take]
    omega
  have hDlen : firstIdxNot (fun k => decide (k = target)) ((keys.take i).reverse) ≤ i := by
    have := firstIdxNot_le_length (fun k => decide (k = target)) ((keys.take i).reverse)
    rwa [hrevlen] at this
  have hrev : ∀ (m : ℕ) (hm : m < i),
      ((keys.take i).reverse)[m] = keys[i - 1 - m] := by
    intro m hm
    rw [List.getElem_reverse]
    rw [List.getElem_take]
    exact getElem_idx_congr (by rw [List.length_take]; omega)
  symm
  apply firstIdxNot_eq
  · unfold skipRunBwd; omega
  · intro j hj hjlt
    unfold skipRunBwd at hjlt
    -- below the run everything is strictly less than the target
    have hpos : 0 < skipRunBwd keys target i := by unfold skipRunBwd; omega
    unfold skipRunBwd at hpos
    have hD : firstIdxNot (fun k => decide (k = target)) ((keys.take i).reverse)
        < ((keys.take i).reverse).length := by omega
    have hfal := firstIdxNot_false (fun k => decide (k = target)) ((keys.take i).reverse) hD
    rw [decide_eq_false_iff_not] at hfal
    rw [hrev _ (by omega)] at hfal
    have hle : keys[i - 1 - firstIdxNot (fun k => decide (k = target)) ((keys.take i).reverse)]
        ≤ keys[i] :=
      pairwise_getElem_le (fun a => le_refl a) hs (by omega) hi
    rw [hk] at hle
    have hlt : keys[i - 1 - firstIdxNot (fun k => decide (k = target)) ((keys.take i).reverse)]
        < target := lt_of_le_of_ne hle hfal
    have hle2 : keys[j]
        ≤ keys[i - 1 - firstIdxNot (fun k => decide (k = target)) ((keys.take i).reverse)] :=
      pairwise_getElem_le (fun a => le_refl a) hs (by omega) (by omega)
    exact decide_eq_true (lt_of_le_of_lt hle2 hlt)
  · intro hn2
    unfold skipRunBwd at hn2 ⊢
    -- at and above the run boundary nothing is below the target
    rcases Nat.lt_or_ge (i - firstIdxNot (fun k => decide (k = target)) ((keys.take i).reverse)) i
      with hc | hc
    · -- inside the run: the key equals the target
      have hm : i - 1 - (i - firstIdxNot (fun k => decide (k = target)) ((keys.take i).reverse))
          < firstIdxNot (fun k => decide (k = target)) ((keys.take i).reverse) := by omega
      have hm2 : i - 1 - (i - firstIdxNot (fun k => decide (k = target)) ((keys.take i).reverse))
          < ((keys.take i).reverse).length := by omega
      have := firstIdxNot_true (fun k => decide (k = target)) ((keys.take i).reverse) _ hm2 hm
      rw [decide_eq_true_iff] at this
      rw [hrev _ (by omega)] at this
      have hidx : i - 1 - (i - 1 - (i - firstIdxNot (fun k => decide (k = target)) ((keys.take i).reverse)))
          = i - firstIdxNot (fun k => decide (k = target)) ((keys.take i).reverse) := by omega
      rw [getElem_idx_congr hidx] at this
      rw [this]
      exact decide_eq_false (lt_irrefl target)
    · -- at or past the hit itself
      have hidx : i - firstIdxNot (fun k => decide (k = target)) ((keys.take i).reverse) = i := by
        omega
      rw [getElem_idx_congr hidx, hk]
      exact decide_eq_false (lt_irrefl target)

end BinarySearch

section ResetSpec

theorem firstIdxNot_map {γ δ : Type} (p : δ → Bool) (f : γ → δ) (l : List γ) :
    firstIdxNot p (l.map f) = firstIdxNot (fun x => p (f x)) l := by
  rw [firstIdxNot, List.takeWhile_map, List.length_map]
  rfl

/-- The first index of `spans` whose `start` exceeds `hi` (equivalently, the
number of spans with `start ≤ hi` when `spans` is sorted by start): the
documented value of `next_start_idx`. -/
def nextStartIdxSpec (spans : List (Span α ι)) (hi : α) : ℕ :=
  firstIdxNot (fun sp => decide (sp.start ≤ hi)) spans

/-- The first index of `spans` whose end key (absent = `+∞`) is `≥ lo`: the
documented value of `next_end_idx`. -/
def nextEndIdxSpec (spans : List (Span α ι)) (lo : α) : ℕ :=
  firstIdxNot (fun sp => decide (maybeInfinite sp.stop < (lo : WithTop α))) spans

omit [DecidableEq ι] in
/-- On a start-sorted list, `reset_next_start_idx` computes the first index
with `start > cur`. -/
theorem resetStartIdx_eq (spans : List (Span α ι)) (cur : α) (hs : spans.Pairwise leStart) :
    resetStartIdx spans cur = nextStartIdxSpec spans cur := by
  have hks : (spans.map Span.start).Pairwise (· ≤ ·) := by
    rw [List.pairwise_map]
    exact hs
  have hbs := bsLoop_spec (spans.map Span.start) cur hks ((spans.map Span.start).length + 1) 0
    (spans.map Span.start).length (by omega) (by omega) (le_refl _)
    (fun j hj hlt => absurd hlt (by omega))
    (fun j hj hge => absurd hj (by omega))
  rcases hm : binarySearchByKey (spans.map Span.start) cur with i | i
  · simp only [resetStartIdx, hm]
    rw [binarySearchByKey] at hm
    rw [hm] at hbs
    obtain ⟨hi, hk⟩ := hbs
    rw [skipRunFwd_eq _ _ hks i hi hk, firstIdxNot_map]
    rfl
  · simp only [resetStartIdx, hm]
    rw [binarySearchByKey] at hm
    rw [hm] at hbs
    obtain ⟨hle, hlt, hge⟩ := hbs
    rw [nextStartIdxSpec, ← firstIdxNot_map (fun k => decide (k ≤ cur)) Span.start spans]
    symm
    apply firstIdxNot_eq
    · exact hle
    · intro j hj hjlt
      exact decide_eq_true (le_of_lt (hlt j hj hjlt))
    · intro hn2
      exact decide_eq_false (not_le.mpr (hge i hn2 (le_refl i)))

omit [DecidableEq ι] in
/-- On an end-sorted list, `reset_next_end_idx` computes the first index with
end key `≥ cur` (absent ends being infinite). -/
theorem resetEndIdx_eq (spans : List (Span α ι)) (cur : α) (hs : spans.Pairwise leEnd) :
    resetEndIdx spans cur = nextEndIdxSpec spans cur := by
  have hks : (spans.map (fun sp => maybeInfinite sp.stop)).Pairwise (· ≤ ·) := by
    rw [List.pairwise_map]
    exact hs
  have hbs := bsLoop_spec (spans.map (fun sp => maybeInfinite sp.stop)) ((cur : WithTop α)) hks
    ((spans.map (fun sp => maybeInfinite sp.stop)).length + 1) 0
    (spans.map (fun sp => maybeInfinite sp.stop)).length (by omega) (by omega) (le_refl _)
    (fun j hj hlt => absurd hlt (by omega))
    (fun j hj hge => absurd hj (by omega))
  rcases hm : binarySearchByKey (spans.map (fun sp => maybeInfinite sp.stop)) ((cur : WithTop α))
    with i | i
  · simp only [resetEndIdx, hm]
    rw [binarySearchByKey] at hm
    rw [hm] at hbs
    obtain ⟨hi, hk⟩ := hbs
    rw [skipRunBwd_eq _ _ hks i hi hk, firstIdxNot_map]
    rfl
  · simp only [resetEndIdx, hm]
    rw [binarySearchByKey] at hm
    rw [hm] at hbs
    obtain ⟨hle, hlt, hge⟩ := hbs
    rw [nextEndIdxSpec,
      ← firstIdxNot_map (fun k => decide (k < (cur : WithTop α))) (fun sp => maybeInfinite sp.stop)
        spans]
    symm
    apply firstIdxNot_eq
    · exact hle
    · intro j hj hjlt
      exact decide_eq_true (hlt j hj hjlt)
    · intro hn2
      exact decide_eq_false (not_lt.mpr (le_of_lt (hge i hn2 (le_refl i))))

omit [DecidableEq ι] in
theorem sortByStart_pairwise (spans : List (Span α ι)) : (sortByStart spans).Pairwise leStart :=
  List.sorted_insertionSort leStart spans

omit [DecidableEq ι] in
theorem sortByStart_perm (spans : List (Span α ι)) : List.Perm (sortByStart spans) spans :=
  List.perm_insertionSort leStart spans

omit [DecidableEq ι] in
theorem sortByEnd_pairwise (spans : List (Span α ι)) : (sortByEnd spans).Pairwise leEnd :=
  List.sorted_insertionSort leEnd spans

omit [DecidableEq ι] in
theorem sortByEnd_perm (spans : List (Span α ι)) : List.Perm (sortByEnd spans) spans :=
  List.perm_insertionSort leEnd spans

end ResetSpec

section Invariant

/-- The overlap condition of the spec: `start ≤ high` and (`end` absent or
`end ≥ low`). -/
def elig (sp : Span α ι) (lo hi : α) : Prop :=
  sp.start ≤ hi ∧ (lo : WithTop α) ≤ maybeInfinite sp.stop

omit [DecidableEq ι] in
theorem is_active_iff_elig (sp : Span α ι) (lo hi : α) :
    sp.is_active lo hi = true ↔ elig sp lo hi := by
  simp [Span.is_active, elig]

/-- The state invariant: the two sorted views are the sorted input, the two
cached indices agree with their binary-search derivations from the current
window, and the active list contains exactly the overlapping input spans. -/
def Inv (spans : List (Span α ι)) (c : Cursor α ι) : Prop :=
  c.spans_start = sortByStart spans ∧
  c.spans_end = sortByEnd spans ∧
  c.next_start_idx = nextStartIdxSpec c.spans_start c.current.2 ∧
  c.next_end_idx = nextEndIdxSpec c.spans_end c.current.1 ∧
  ∀ sp : Span α ι, sp ∈ c.active ↔ sp ∈ spans ∧ elig sp c.current.1 c.current.2

omit [DecidableEq ι] in
theorem takeWhile_startLE (hi : α) {l : List (Span α ι)} (hs : l.Pairwise leStart) :
    l.takeWhile (fun sp => decide (sp.start ≤ hi))
      = l.filter (fun sp => decide (sp.start ≤ hi)) :=
  takeWhile_eq_filter_of_pairwise hs (fun a b hab hb => by
    rw [decide_eq_true_iff] at hb ⊢
    exact le_trans hab hb)

omit [DecidableEq ι] in
theorem takeWhile_endLT (lo : α) {l : List (Span α ι)} (hs : l.Pairwise leEnd) :
    l.takeWhile (fun sp => decide (maybeInfinite sp.stop < (lo : WithTop α)))
      = l.filter (fun sp => decide (maybeInfinite sp.stop < (lo : WithTop α))) :=
  takeWhile_eq_filter_of_pairwise hs (fun a b hab hb => by
    rw [decide_eq_true_iff] at hb ⊢
    exact lt_of_le_of_lt hab hb)

omit [DecidableEq ι] in
theorem inv_new (spans : List (Span α ι)) (lo hi : α) : Inv spans (Cursor.new spans lo hi) := by
  have hss := sortByStart_pairwise spans
  have hse := sortByEnd_pairwise spans
  refine ⟨rfl, rfl, ?_, ?_, ?_⟩
  · exact resetStartIdx_eq (sortByStart spans) hi hss
  · exact resetEndIdx_eq (sortByEnd spans) lo hse
  · intro sp
    show sp ∈ ((sortByStart spans).takeWhile (fun sp => decide (sp.start ≤ hi))).filter
      (fun sp => decide ((lo : WithTop α) ≤ maybeInfinite sp.stop)) ↔ _
    rw [takeWhile_startLE hi hss, List.filter_filter, List.mem_filter,
      (sortByStart_perm spans).mem_iff]
    simp only [Bool.and_eq_true, decide_eq_true_iff, elig]
    tauto

omit [DecidableEq ι] in
/-- Effect of the forward-edge half of `advance_to` on a start-sorted view
with a correctly cached index: in both branches the spans appended to
`active` are exactly those with `old_end < start ≤ end_time` (none when the
edge did not grow), and the cached index ends up at its fresh derivation for
the new right edge. -/
theorem stepStart_eq (c : Cursor α ι) (old_end end_time : α)
    (hs : c.spans_start.Pairwise leStart)
    (hidx : c.next_start_idx = nextStartIdxSpec c.spans_start old_end)
    (hcur : c.current.2 = end_time) :
    (stepStart c old_end end_time).active
        = c.active ++ c.spans_start.filter
            (fun sp => decide (sp.start ≤ end_time) && !decide (sp.start ≤ old_end)) ∧
    (stepStart c old_end end_time).next_start_idx
        = nextStartIdxSpec c.spans_start end_time ∧
    (stepStart c old_end end_time).spans_start = c.spans_start ∧
    (stepStart c old_end end_time).spans_end = c.spans_end ∧
    (stepStart c old_end end_time).current = c.current ∧
    (stepStart c old_end end_time).next_end_idx = c.next_end_idx := by
  by_cases hb : old_end < end_time
  · simp only [stepStart, if_pos hb]
    have hadm : (c.spans_start.drop c.next_start_idx).takeWhile
          (fun sp => decide (sp.start ≤ end_time))
        = c.spans_start.filter
            (fun sp => decide (sp.start ≤ end_time) && !decide (sp.start ≤ old_end)) := by
      rw [hidx, nextStartIdxSpec, drop_firstIdxNot,
        dropWhile_eq_filter_not_of_pairwise hs (fun a b hab h => by
          rw [decide_eq_true_iff] at h ⊢
          exact le_trans hab h),
        takeWhile_eq_filter_of_pairwise (hs.filter _) (fun a b hab h => by
          rw [decide_eq_true_iff] at h ⊢
          exact le_trans hab h),
        List.filter_filter]
    refine ⟨by rw [hadm], ?_, trivial, trivial, trivial, trivial⟩
    show c.next_start_idx + _ = _
    rw [hadm, hidx]
    have h1 : nextStartIdxSpec c.spans_start old_end
        = c.spans_start.countP (fun sp => decide (sp.start ≤ old_end)) := by
      rw [nextStartIdxSpec, firstIdxNot, takeWhile_startLE old_end hs,
        List.countP_eq_length_filter]
    have h2 : nextStartIdxSpec c.spans_start end_time
        = c.spans_start.countP (fun sp => decide (sp.start ≤ end_time)) := by
      rw [nextStartIdxSpec, firstIdxNot, takeWhile_startLE end_time hs,
        List.countP_eq_length_filter]
    have h3 : (c.spans_start.filter
          (fun sp => decide (sp.start ≤ end_time) && !decide (sp.start ≤ old_end))).length
        = c.spans_start.countP
            (fun sp => decide (sp.start ≤ end_time) && !decide (sp.start ≤ old_end)) := by
      rw [List.countP_eq_length_filter]
    have h4 : c.spans_start.countP (fun sp => decide (sp.start ≤ end_time))
        = c.spans_start.countP (fun sp => decide (sp.start ≤ old_end))
          + c.spans_start.countP
              (fun sp => decide (sp.start ≤ end_time) && !decide (sp.start ≤ old_end)) :=
      countP_split _ _ _ (fun sp _ hq => by
        rw [decide_eq_true_iff] at hq ⊢
        exact le_trans hq (le_of_lt hb))
    omega
  · simp only [stepStart, if_neg hb, Cursor.reset_next_start_idx]
    have hnil : c.spans_start.filter
        (fun sp => decide (sp.start ≤ end_time) && !decide (sp.start ≤ old_end)) = [] := by
      rw [List.filter_eq_nil_iff]
      intro sp _
      simp only [Bool.and_eq_true, decide_eq_true_iff, Bool.not_eq_true',
        decide_eq_false_iff_not, not_and, not_not]
      intro h1
      exact le_trans h1 (not_lt.mp hb)
    refine ⟨by rw [hnil, List.append_nil], ?_, trivial, trivial, trivial, trivial⟩
    show resetStartIdx c.spans_start c.current.2 = _
    rw [hcur]
    exact resetStartIdx_eq c.spans_start end_time hs

omit [DecidableEq ι] in
/-- Effect of the backward-edge half of `advance_to` on an end-sorted view
with a correctly cached index: in both branches the spans appended to
`active` are exactly those with `start_time ≤ end < old_start` (none when the
edge did not grow), and the cached index ends up at its fresh derivation for
the new left edge. -/
theorem stepEnd_eq (c : Cursor α ι) (old_start start_time : α)
    (hs : c.spans_end.Pairwise leEnd)
    (hidx : c.next_end_idx = nextEndIdxSpec c.spans_end old_start)
    (hcur : c.current.1 = start_time) :
    (stepEnd c old_start start_time).active
        = c.active ++ (c.spans_end.filter
            (fun sp => decide ((start_time : WithTop α) ≤ maybeInfinite sp.stop)
              && decide (maybeInfinite sp.stop < (old_start : WithTop α)))).reverse ∧
    (stepEnd c old_start start_time).next_end_idx = nextEndIdxSpec c.spans_end start_time ∧
    (stepEnd c old_start start_time).spans_start = c.spans_start ∧
    (stepEnd c old_start start_time).spans_end = c.spans_end ∧
    (stepEnd c old_start start_time).current = c.current ∧
    (stepEnd c old_start start_time).next_start_idx = c.next_start_idx := by
  by_cases hb : start_time < old_start
  · simp only [stepEnd, if_pos hb]
    have hrev : ((c.spans_end.filter
          (fun sp => decide (maybeInfinite sp.stop < (old_start : WithTop α)))).reverse).Pairwise
        (fun a b => leEnd b a) :=
      List.pairwise_reverse.mpr (hs.filter _)
    have hadm : ((c.spans_end.take c.next_end_idx).reverse).takeWhile
          (fun sp => decide ((start_time : WithTop α) ≤ maybeInfinite sp.stop))
        = (c.spans_end.filter
            (fun sp => decide ((start_time : WithTop α) ≤ maybeInfinite sp.stop)
              && decide (maybeInfinite sp.stop < (old_start : WithTop α)))).reverse := by
      rw [hidx, nextEndIdxSpec, take_firstIdxNot, takeWhile_endLT old_start hs,
        takeWhile_eq_filter_of_pairwise hrev (fun a b hab h => by
          rw [decide_eq_true_iff] at h ⊢
          exact le_trans h hab),
        List.filter_reverse, List.filter_filter]
    refine ⟨by rw [hadm], ?_, trivial, trivial, trivial, trivial⟩
    show c.next_end_idx - _ = _
    rw [hadm, hidx]
    have h1 : nextEndIdxSpec c.spans_end old_start
        = c.spans_end.countP
            (fun sp => decide (maybeInfinite sp.stop < (old_start : WithTop α))) := by
      rw [nextEndIdxSpec, firstIdxNot, takeWhile_endLT old_start hs,
        List.countP_eq_length_filter]
    have h2 : nextEndIdxSpec c.spans_end start_time
        = c.spans_end.countP
            (fun sp => decide (maybeInfinite sp.stop < (start_time : WithTop α))) := by
      rw [nextEndIdxSpec, firstIdxNot, takeWhile_endLT start_time hs,
        List.countP_eq_length_filter]
    have h3 : ((c.spans_end.filter
          (fun sp => decide ((start_time : WithTop α) ≤ maybeInfinite sp.stop)
            && decide (maybeInfinite sp.stop < (old_start : WithTop α)))).reverse).length
        = c.spans_end.countP
            (fun sp => decide ((start_time : WithTop α) ≤ maybeInfinite sp.stop)
              && decide (maybeInfinite sp.stop < (old_start : WithTop α))) := by
      rw [List.length_reverse, List.countP_eq_length_filter]
    have h4 : c.spans_end.countP
          (fun sp => decide (maybeInfinite sp.stop < (old_start : WithTop α)))
        = c.spans_end.countP
            (fun sp => decide ((start_time : WithTop α) ≤ maybeInfinite sp.stop)
              && decide (maybeInfinite sp.stop < (old_start : WithTop α)))
          + c.spans_end.countP
              (fun sp => decide (maybeInfinite sp.stop < (old_start : WithTop α))
                && !(decide ((start_time : WithTop α) ≤ maybeInfinite sp.stop)
                  && decide (maybeInfinite sp.stop < (old_start : WithTop α)))) :=
      countP_split _ _ _ (fun sp _ hq => by
        rw [Bool.and_eq_true] at hq
        exact hq.2)
    have h5 : c.spans_end.countP
          (fun sp => decide (maybeInfinite sp.stop < (old_start : WithTop α))
            && !(decide ((start_time : WithTop α) ≤ maybeInfinite sp.stop)
              && decide (maybeInfinite sp.stop < (old_start : WithTop α))))
        = c.spans_end.countP
            (fun sp => decide (maybeInfinite sp.stop < (start_time : WithTop α))) := by
      apply List.countP_congr
      intro sp _
      simp only [Bool.and_eq_true, decide_eq_true_iff, Bool.not_eq_true',
        Bool.and_eq_false_iff, decide_eq_false_iff_not, not_le, not_lt]
      constructor
      · rintro ⟨hol, hcase⟩
        rcases hcase with hlt | hge
        · exact hlt
        · exact absurd hol (not_lt.mpr hge)
      · intro hlt
        refine ⟨lt_of_lt_of_le hlt ?_, Or.inl hlt⟩
        rw [WithTop.coe_le_coe]
        exact le_of_lt hb
    omega
  · simp only [stepEnd, if_neg hb, Cursor.reset_next_end_idx]
    have hnil : c.spans_end.filter
        (fun sp => decide ((start_time : WithTop α) ≤ maybeInfinite sp.stop)
          && decide (maybeInfinite sp.stop < (old_start : WithTop α))) = [] := by
      rw [List.filter_eq_nil_iff]
      intro sp _
      simp only [Bool.and_eq_true, decide_eq_true_iff, not_and, not_lt]
      intro h1
      calc (old_start : WithTop α) ≤ (start_time : WithTop α) := by
            rw [WithTop.coe_le_coe]
            exact not_lt.mp hb
        _ ≤ maybeInfinite sp.stop := h1
    refine ⟨by rw [hnil, List.reverse_nil, List.append_nil], ?_, trivial, trivial, trivial, trivial⟩
    show resetEndIdx c.spans_end c.current.1 = _
    rw [hcur]
    exact resetEndIdx_eq c.spans_end start_time hs

omit [DecidableEq ι] in
theorem stepStart_current (c : Cursor α ι) (old_end end_time : α) :
    (stepStart c old_end end_time).current = c.current := by
  unfold stepStart Cursor.reset_next_start_idx
  split
  · rfl
  · rfl

omit [DecidableEq ι] in
theorem stepEnd_current (c : Cursor α ι) (old_start start_time : α) :
    (stepEnd c old_start start_time).current = c.current := by
  unfold stepEnd Cursor.reset_next_end_idx
  split
  · rfl
  · rfl

omit [DecidableEq ι] in
/-- `advance_to` records exactly the window it was passed, whatever that
window is. -/
theorem advance_to_current (c : Cursor α ι) (lo hi : α) :
    (c.advance_to lo hi).current = (lo, hi) := by
  show (stepEnd (stepStart { c with current := (lo, hi) } c.current.2 hi)
    c.current.1 lo).current = (lo, hi)
  rw [stepEnd_current, stepStart_current]

omit [DecidableEq ι] in
/-- One `advance_to` call preserves the state invariant (for an arbitrary new
window, inverted windows included). -/
theorem inv_advance (spans : List (Span α ι)) (c : Cursor α ι) (lo hi : α)
    (h : Inv spans c) : Inv spans (c.advance_to lo hi) := by
  obtain ⟨h1, h2, h3, h4, h5⟩ := h
  have hss : c.spans_start.Pairwise leStart := by
    rw [h1]; exact sortByStart_pairwise spans
  have hse : c.spans_end.Pairwise leEnd := by
    rw [h2]; exact sortByEnd_pairwise spans
  have e1 := stepStart_eq { c with current := (lo, hi) } c.current.2 hi hss h3 rfl
  obtain ⟨ea1, ei1, es1, ee1, ec1, en1⟩ := e1
  have e2 := stepEnd_eq (stepStart { c with current := (lo, hi) } c.current.2 hi)
    c.current.1 lo
    (by rw [ee1]; exact hse)
    (by rw [en1, ee1]; exact h4)
    (by rw [ec1])
  obtain ⟨ea2, ei2, es2, ee2, ec2, en2⟩ := e2
  have hA : (c.advance_to lo hi).active
      = (stepEnd (stepStart { c with current := (lo, hi) } c.current.2 hi) c.current.1
          lo).active.filter (fun sp => sp.is_active lo hi) := rfl
  have hS : (c.advance_to lo hi).spans_start
      = (stepEnd (stepStart { c with current := (lo, hi) } c.current.2 hi) c.current.1
          lo).spans_start := rfl
  have hE : (c.advance_to lo hi).spans_end
      = (stepEnd (stepStart { c with current := (lo, hi) } c.current.2 hi) c.current.1
          lo).spans_end := rfl
  have hC : (c.advance_to lo hi).current
      = (stepEnd (stepStart { c with current := (lo, hi) } c.current.2 hi) c.current.1
          lo).current := rfl
  have hNS : (c.advance_to lo hi).next_start_idx
      = (stepEnd (stepStart { c with current := (lo, hi) } c.current.2 hi) c.current.1
          lo).next_start_idx := rfl
  have hNE : (c.advance_to lo hi).next_end_idx
      = (stepEnd (stepStart { c with current := (lo, hi) } c.current.2 hi) c.current.1
          lo).next_end_idx := rfl
  refine ⟨?_, ?_, ?_, ?_, ?_⟩
  · rw [hS, es2, es1]
    exact h1
  · rw [hE, ee2, ee1]
    exact h2
  · rw [hNS, hS, hC, en2, es2, ec2, ei1, es1, ec1]
    try rfl
  · rw [hNE, hE, hC, ei2, ee2, ec2, ee1, ec1]
    try rfl
  · intro sp
    have hmSS : sp ∈ c.spans_start ↔ sp ∈ spans := by
      rw [h1]; exact (sortByStart_perm spans).mem_iff
    have hmSE : sp ∈ c.spans_end ↔ sp ∈ spans := by
      rw [h2]; exact (sortByEnd_perm spans).mem_iff
    rw [hA, hC, ec2, ec1]
    simp only [List.mem_filter, ea2, ea1, ee1, List.mem_append, List.mem_reverse,
      h5 sp, is_active_iff_elig]
    simp only [List.mem_filter, Bool.and_eq_true, decide_eq_true_iff, Bool.not_eq_true',
      decide_eq_false_iff_not]
    constructor
    · rintro ⟨hmem, hel⟩
      refine ⟨?_, hel⟩
      rcases hmem with (h | h) | h
      · exact h.1
      · exact hmSS.mp h.1
      · exact hmSE.mp h.1
    · rintro ⟨hmem, hel⟩
      refine ⟨?_, hel⟩
      by_cases hA2 : sp.start ≤ c.current.2
      · by_cases hB : (c.current.1 : WithTop α) ≤ maybeInfinite sp.stop
        · exact Or.inl (Or.inl ⟨hmem, hA2, hB⟩)
        · exact Or.inr ⟨hmSE.mpr hmem, hel.2, not_le.mp hB⟩
      · exact Or.inl (Or.inr ⟨hmSS.mpr hmem, hel.1, hA2⟩)

omit [DecidableEq ι] in
/-- Every reachable state, via arbitrary windows, satisfies the invariant. -/
theorem inv_reaches {spans : List (Span α ι)} {c : Cursor α ι} (h : Reaches spans c) :
    Inv spans c := by
  induction h with
  | base lo hi => exact inv_new spans lo hi
  | step lo hi _ ih => exact inv_advance spans _ lo hi ih

omit [DecidableEq ι] in
theorem validReaches_reaches {spans : List (Span α ι)} {c : Cursor α ι}
    (h : ValidReaches spans c) : Reaches spans c := by
  induction h with
  | base _ => exact Reaches.base _ _
  | step _ _ ih => exact Reaches.step _ _ ih

omit [DecidableEq ι] in
/-- Every validly reached state has a well-formed current window. -/
theorem validReaches_window {spans : List (Span α ι)} {c : Cursor α ι}
    (h : ValidReaches spans c) : c.current.1 ≤ c.current.2 := by
  induction h with
  | base hw => exact hw
  | step hw _ _ =>
    rw [advance_to_current]
    exact hw

end Invariant

section CountInvariant

theorem count_filter_ite {γ : Type} [DecidableEq γ] (p : γ → Bool) (l : List γ) (a : γ) :
    (l.filter p).count a = if p a = true then l.count a else 0 := by
  by_cases h : p a = true
  · rw [if_pos h, List.count_filter h]
  · rw [if_neg h, List.count_eq_zero]
    intro hmem
    exact h (List.of_mem_filter hmem)

/-- The multiset-level invariant: each span value occurs in `active` exactly
as often as it occurs in the input when it overlaps the window, and not at
all otherwise.  (Established below for well-formed spans under valid
windows.) -/
def CountInv (spans : List (Span α ι)) (c : Cursor α ι) : Prop :=
  ∀ sp : Span α ι,
    c.active.count sp
      = if sp.is_active c.current.1 c.current.2 then spans.count sp else 0

theorem countInv_new (spans : List (Span α ι)) (lo hi : α) :
    CountInv spans (Cursor.new spans lo hi) := by
  intro sp
  show (((sortByStart spans).takeWhile (fun sp => decide (sp.start ≤ hi))).filter
      (fun sp => decide ((lo : WithTop α) ≤ maybeInfinite sp.stop))).count sp = _
  rw [takeWhile_startLE hi (sortByStart_pairwise spans), List.filter_filter, count_filter_ite,
    (sortByStart_perm spans).count_eq]
  by_cases h : sp.is_active lo hi = true
  · rw [is_active_iff_elig] at h
    rw [if_pos (by simp [h.1, h.2]),
      if_pos (by exact (is_active_iff_elig sp lo hi).mpr h)]
  · rw [is_active_iff_elig] at h
    rw [if_neg (by
        simp only [Bool.and_eq_true, decide_eq_true_iff, not_and]
        intro hlo hhi
        exact h ⟨hhi, hlo⟩),
      if_neg (by rw [is_active_iff_elig]; exact h)]

theorem countInv_advance (spans : List (Span α ι)) (c : Cursor α ι) (lo hi : α)
    (hinv : Inv spans c) (hcnt : CountInv spans c)
    (hwf : ∀ sp ∈ spans, WellFormed sp)
    (hold : c.current.1 ≤ c.current.2) :
    CountInv spans (c.advance_to lo hi) := by
  obtain ⟨h1, h2, h3, h4, h5⟩ := hinv
  have hss : c.spans_start.Pairwise leStart := by
    rw [h1]; exact sortByStart_pairwise spans
  have hse : c.spans_end.Pairwise leEnd := by
    rw [h2]; exact sortByEnd_pairwise spans
  have e1 := stepStart_eq { c with current := (lo, hi) } c.current.2 hi hss h3 rfl
  obtain ⟨ea1, ei1, es1, ee1, ec1, en1⟩ := e1
  have e2 := stepEnd_eq (stepStart { c with current := (lo, hi) } c.current.2 hi)
    c.current.1 lo
    (by rw [ee1]; exact hse)
    (by rw [en1, ee1]; exact h4)
    (by rw [ec1])
  obtain ⟨ea2, ei2, es2, ee2, ec2, en2⟩ := e2
  have hA : (c.advance_to lo hi).active
      = (stepEnd (stepStart { c with current := (lo, hi) } c.current.2 hi) c.current.1
          lo).active.filter (fun sp => sp.is_active lo hi) := rfl
  have hC : (c.advance_to lo hi).current
      = (stepEnd (stepStart { c with current := (lo, hi) } c.current.2 hi) c.current.1
          lo).current := rfl
  intro sp
  have hcSS : c.spans_start.count sp = spans.count sp := by
    rw [h1]; exact (sortByStart_perm spans).count_eq sp
  have hcSE : c.spans_end.count sp = spans.count sp := by
    rw [h2]; exact (sortByEnd_perm spans).count_eq sp
  rw [hA, hC, ec2, ec1]
  show _ = if sp.is_active lo hi then spans.count sp else 0
  rw [count_filter_ite, ea2, ea1, ee1]
  simp only [List.count_append, List.count_reverse, count_filter_ite]
  rw [hcnt sp, hcSS, hcSE]
  by_cases hN : sp.is_active lo hi = true
  · rw [if_pos hN, if_pos hN]
    have hNe := (is_active_iff_elig sp lo hi).mp hN
    by_cases hmem : sp ∈ spans
    · have hwfsp := hwf sp hmem
      by_cases hA2 : sp.start ≤ c.current.2
      · by_cases hB2 : (c.current.1 : WithTop α) ≤ maybeInfinite sp.stop
        · rw [if_pos (by rw [is_active_iff_elig]; exact ⟨hA2, hB2⟩),
            if_neg (by simp [hA2]),
            if_neg (by simp [not_lt.mpr hB2])]
          omega
        · rw [if_neg (by rw [is_active_iff_elig]; exact fun h => hB2 h.2),
            if_neg (by simp [hA2]),
            if_pos (by simp [hNe.2, not_le.mp hB2])]
          omega
      · rw [if_neg (by rw [is_active_iff_elig]; exact fun h => hA2 h.1),
          if_pos (by simp [hNe.1, hA2]),
          if_neg ?_]
        · omega
        · simp only [Bool.and_eq_true, decide_eq_true_iff, not_and]
          intro _ hlt
          have hcoe : (sp.start : WithTop α) < (c.current.1 : WithTop α) :=
            lt_of_le_of_lt hwfsp hlt
          rw [WithTop.coe_lt_coe] at hcoe
          exact absurd hA2 (not_not_intro (le_trans (le_of_lt hcoe) hold))
    · have hz : spans.count sp = 0 := List.count_eq_zero.mpr hmem
      rw [hz]
      simp
  · rw [if_neg hN, if_neg hN]

/-- For well-formed spans and valid windows, the multiset invariant holds at
every reachable state. -/
theorem countInv_validReaches {spans : List (Span α ι)}
    (hwf : ∀ sp ∈ spans, WellFormed sp) {c : Cursor α ι} (h : ValidReaches spans c) :
    CountInv spans c := by
  induction h with
  | base hw => exact countInv_new spans _ _
  | step hw hr ih =>
    exact countInv_advance spans _ _ _ (inv_reaches (validReaches_reaches hr)) ih hwf
      (validReaches_window hr)

end CountInvariant

section Claims

/-- Apply a sequence of `advance_to` moves in order. -/
def applyMoves (c : Cursor α ι) : List (α × α) → Cursor α ι
  | [] => c
  | w :: ws => applyMoves (c.advance_to w.1 w.2) ws

omit [DecidableEq ι] in
theorem reaches_applyMoves {spans : List (Span α ι)} {c : Cursor α ι}
    (h : Reaches spans c) (ws : List (α × α)) : Reaches spans (applyMoves c ws) := by
  induction ws generalizing c with
  | nil => exact h
  | cons w ws ih => exact ih (Reaches.step w.1 w.2 h)

omit [DecidableEq ι] in
theorem applyMoves_current_congr (ws : List (α × α)) :
    ∀ c c' : Cursor α ι, c.current = c'.current →
      (applyMoves c ws).current = (applyMoves c' ws).current := by
  induction ws with
  | nil => exact fun c c' h => h
  | cons w ws ih =>
    intro c c' _
    exact ih _ _ (by rw [advance_to_current, advance_to_current])

omit [DecidableEq ι] in
theorem maybeInfinite_ge_iff (lo : α) (x : Option α) :
    ((lo : WithTop α) ≤ maybeInfinite x) ↔ (x = none ∨ ∃ e, x = some e ∧ lo ≤ e) := by
  cases x with
  | none => simp [maybeInfinite]
  | some e => simp [maybeInfinite, WithTop.coe_le_coe]

omit [DecidableEq ι] in
/-- C1: for every span collection and every window with `low ≤ high` reached
from `new` by `advance_to` calls whose windows all satisfy `low ≤ high`
(zero calls included), the active list contains a span exactly when it is an
input span with `start ≤ high` and (`end` absent, or `end ≥ low`). -/
theorem active_iff_overlap (spans : List (Span α ι)) (c : Cursor α ι)
    (h : ValidReaches spans c) (sp : Span α ι) :
    sp ∈ c.active
      ↔ sp ∈ spans ∧ sp.start ≤ c.current.2
          ∧ (sp.stop = none ∨ ∃ e, sp.stop = some e ∧ c.current.1 ≤ e) := by
  rw [(inv_reaches (validReaches_reaches h)).2.2.2.2 sp]
  rw [elig, maybeInfinite_ge_iff]

/-- Witness for C1 at a concrete validly reached cursor. -/
theorem active_iff_overlap_witness :
    (⟨3, some 5, 0⟩ : Span ℤ ℕ) ∈ (Cursor.new [(⟨3, some 5, 0⟩ : Span ℤ ℕ)] (0:ℤ) 4).active
      ↔ (⟨3, some 5, 0⟩ : Span ℤ ℕ) ∈ [(⟨3, some 5, 0⟩ : Span ℤ ℕ)]
          ∧ (⟨3, some 5, 0⟩ : Span ℤ ℕ).start
              ≤ (Cursor.new [(⟨3, some 5, 0⟩ : Span ℤ ℕ)] (0:ℤ) 4).current.2
          ∧ ((⟨3, some 5, 0⟩ : Span ℤ ℕ).stop = none
              ∨ ∃ e, (⟨3, some 5, 0⟩ : Span ℤ ℕ).stop = some e
                  ∧ (Cursor.new [(⟨3, some 5, 0⟩ : Span ℤ ℕ)] (0:ℤ) 4).current.1 ≤ e) :=
  active_iff_overlap _ _ (ValidReaches.base (by decide)) _

omit [DecidableEq ι] in
/-- C6: calling `advance_to` with the cursor's own current window leaves the
active list unchanged, at every reachable state. -/
theorem advance_to_idempotent (spans : List (Span α ι)) (c : Cursor α ι)
    (h : Reaches spans c) :
    (c.advance_to c.current.1 c.current.2).active = c.active := by
  obtain ⟨h1, h2, h3, h4, h5⟩ := inv_reaches h
  have hss : c.spans_start.Pairwise leStart := by
    rw [h1]; exact sortByStart_pairwise spans
  have hse : c.spans_end.Pairwise leEnd := by
    rw [h2]; exact sortByEnd_pairwise spans
  have e1 := stepStart_eq { c with current := (c.current.1, c.current.2) } c.current.2
    c.current.2 hss h3 rfl
  obtain ⟨ea1, ei1, es1, ee1, ec1, en1⟩ := e1
  have e2 := stepEnd_eq
    (stepStart { c with current := (c.current.1, c.current.2) } c.current.2 c.current.2)
    c.current.1 c.current.1
    (by rw [ee1]; exact hse)
    (by rw [en1, ee1]; exact h4)
    (by rw [ec1])
  obtain ⟨ea2, ei2, es2, ee2, ec2, en2⟩ := e2
  have hA : (c.advance_to c.current.1 c.current.2).active
      = (stepEnd
          (stepStart { c with current := (c.current.1, c.current.2) } c.current.2 c.current.2)
          c.current.1 c.current.1).active.filter
            (fun sp => sp.is_active c.current.1 c.current.2) := rfl
  have hnilA : c.spans_start.filter
      (fun sp => decide (sp.start ≤ c.current.2) && !decide (sp.start ≤ c.current.2)) = [] := by
    rw [List.filter_eq_nil_iff]
    intro sp _
    simp
  have hnilB : c.spans_end.filter
      (fun sp => decide ((c.current.1 : WithTop α) ≤ maybeInfinite sp.stop)
        && decide (maybeInfinite sp.stop < (c.current.1 : WithTop α))) = [] := by
    rw [List.filter_eq_nil_iff]
    intro sp _
    simp only [Bool.and_eq_true, decide_eq_true_iff, not_and]
    exact fun hle => not_lt.mpr hle
  rw [hA, ea2, ea1, ee1]
  simp only [hnilA, hnilB, List.reverse_nil, List.append_nil]
  rw [List.filter_eq_self]
  intro sp hsp
  exact (is_active_iff_elig sp c.current.1 c.current.2).mpr ((h5 sp).mp hsp).2

/-- Witness for C6 at a concrete reachable cursor. -/
theorem advance_to_idempotent_witness :
    (((Cursor.new [(⟨0, some 5, 0⟩ : Span ℤ ℕ)] (0:ℤ) 2)).advance_to
        (Cursor.new [(⟨0, some 5, 0⟩ : Span ℤ ℕ)] (0:ℤ) 2).current.1
        (Cursor.new [(⟨0, some 5, 0⟩ : Span ℤ ℕ)] (0:ℤ) 2).current.2).active
      = (Cursor.new [(⟨0, some 5, 0⟩ : Span ℤ ℕ)] (0:ℤ) 2).active :=
  advance_to_idempotent _ _ (Reaches.base 0 2)

omit [DecidableEq ι] in
/-- C8: at every state reached with valid windows, both cached indices agree
with a fresh binary search over the corresponding sorted view for the current
window (`reset_next_start_idx` and `reset_next_end_idx` recomputed from
scratch). -/
theorem cached_indices_rederivable (spans : List (Span α ι)) (c : Cursor α ι)
    (h : ValidReaches spans c) :
    c.next_start_idx = resetStartIdx c.spans_start c.current.2
      ∧ c.next_end_idx = resetEndIdx c.spans_end c.current.1 := by
  obtain ⟨h1, h2, h3, h4, _⟩ := inv_reaches (validReaches_reaches h)
  constructor
  · rw [h3, resetStartIdx_eq _ _ (by rw [h1]; exact sortByStart_pairwise spans)]
  · rw [h4, resetEndIdx_eq _ _ (by rw [h2]; exact sortByEnd_pairwise spans)]

/-- Witness for C8 at a concrete validly reached cursor. -/
theorem cached_indices_rederivable_witness :
    ((Cursor.new [(⟨3, some 5, 0⟩ : Span ℤ ℕ)] (0:ℤ) 4).advance_to 1 6).next_start_idx
        = resetStartIdx
            ((Cursor.new [(⟨3, some 5, 0⟩ : Span ℤ ℕ)] (0:ℤ) 4).advance_to 1 6).spans_start
            ((Cursor.new [(⟨3, some 5, 0⟩ : Span ℤ ℕ)] (0:ℤ) 4).advance_to 1 6).current.2
      ∧ ((Cursor.new [(⟨3, some 5, 0⟩ : Span ℤ ℕ)] (0:ℤ) 4).advance_to 1 6).next_end_idx
        = resetEndIdx
            ((Cursor.new [(⟨3, some 5, 0⟩ : Span ℤ ℕ)] (0:ℤ) 4).advance_to 1 6).spans_end
            ((Cursor.new [(⟨3, some 5, 0⟩ : Span ℤ ℕ)] (0:ℤ) 4).advance_to 1 6).current.1 :=
  cached_indices_rederivable _ _
    (ValidReaches.step (by decide) (ValidReaches.base (by decide)))

omit [DecidableEq ι] in
/-- C9: `is_finished` holds exactly when the active list is empty and
`next_start_idx` has reached the end of `spans_by_start`; stated over every
reachable cursor state. -/
theorem is_finished_iff_empty_and_exhausted (spans : List (Span α ι)) (c : Cursor α ι)
    (_h : Reaches spans c) :
    (c.is_finished = true ↔ c.active = [] ∧ c.next_start_idx = c.spans_start.length) := by
  rw [Cursor.is_finished, Bool.and_eq_true, beq_iff_eq, List.isEmpty_iff]

/-- Witness for C9 at a concrete reachable cursor. -/
theorem is_finished_iff_empty_and_exhausted_witness :
    ((Cursor.new [(⟨3, some 5, 0⟩ : Span ℤ ℕ)] (6:ℤ) 7).is_finished = true
      ↔ (Cursor.new [(⟨3, some 5, 0⟩ : Span ℤ ℕ)] (6:ℤ) 7).active = []
          ∧ (Cursor.new [(⟨3, some 5, 0⟩ : Span ℤ ℕ)] (6:ℤ) 7).next_start_idx
              = (Cursor.new [(⟨3, some 5, 0⟩ : Span ℤ ℕ)] (6:ℤ) 7).spans_start.length) :=
  is_finished_iff_empty_and_exhausted _ _ (Reaches.base 6 7)

omit [DecidableEq ι] in
/-- C10: `new` and `advance_to` are total for every input, inverted windows
included; `advance_to` records exactly the window it was passed (so a
subsequent `current()` returns it); and at every reachable state the cached
indices stay within bounds, so the slice indexing inside the Rust walks
cannot go out of range. -/
theorem cursor_ops_total (spans : List (Span α ι)) :
    (∀ lo hi : α, (Cursor.new spans lo hi).current = (lo, hi))
      ∧ (∀ (c : Cursor α ι) (lo hi : α), (c.advance_to lo hi).current = (lo, hi))
      ∧ (∀ c : Cursor α ι, Reaches spans c →
          c.next_start_idx ≤ c.spans_start.length
            ∧ c.next_end_idx ≤ c.spans_end.length) := by
  refine ⟨fun lo hi => rfl, fun c lo hi => advance_to_current c lo hi, ?_⟩
  intro c h
  obtain ⟨h1, h2, h3, h4, _⟩ := inv_reaches h
  constructor
  · rw [h3]
    exact firstIdxNot_le_length _ _
  · rw [h4]
    exact firstIdxNot_le_length _ _

/-- Witness for C10, including an inverted `advance_to` window. -/
theorem cursor_ops_total_witness :
    (Cursor.new [(⟨3, some 5, 0⟩ : Span ℤ ℕ)] (0:ℤ) 1).current = (0, 1)
      ∧ ((Cursor.new [(⟨3, some 5, 0⟩ : Span ℤ ℕ)] (0:ℤ) 1).advance_to 5 2).current = (5, 2)
      ∧ ((Cursor.new [(⟨3, some 5, 0⟩ : Span ℤ ℕ)] (0:ℤ) 1).next_start_idx
            ≤ (Cursor.new [(⟨3, some 5, 0⟩ : Span ℤ ℕ)] (0:ℤ) 1).spans_start.length
          ∧ (Cursor.new [(⟨3, some 5, 0⟩ : Span ℤ ℕ)] (0:ℤ) 1).next_end_idx
            ≤ (Cursor.new [(⟨3, some 5, 0⟩ : Span ℤ ℕ)] (0:ℤ) 1).spans_end.length) :=
  ⟨(cursor_ops_total [(⟨3, some 5, 0⟩ : Span ℤ ℕ)]).1 0 1,
    (cursor_ops_total [(⟨3, some 5, 0⟩ : Span ℤ ℕ)]).2.1 _ 5 2,
    (cursor_ops_total [(⟨3, some 5, 0⟩ : Span ℤ ℕ)]).2.2 _ (Reaches.base 0 1)⟩

/-- C2 counterexample: one span (hence a pairwise-distinct input) whose end
precedes its start is admitted by both walks of a single `advance_to` that
grows both edges, so it appears twice in `active`, though every window used
(initial `[5,5]`, then `[0,20]`) satisfies `low ≤ high`. -/
theorem active_dup_counterexample :
    ((5:ℤ) ≤ 5 ∧ (0:ℤ) ≤ 20)
      ∧ ([(⟨10, some 0, 0⟩ : Span ℤ ℕ)]).Nodup
      ∧ ((Cursor.new [(⟨10, some 0, 0⟩ : Span ℤ ℕ)] (5:ℤ) 5).advance_to 0 20).active.count
          (⟨10, some 0, 0⟩ : Span ℤ ℕ) = 2 := by
  decide

/-- C2 (amended): provided every input span is well formed (a present end is
`≥` its start), a pairwise-distinct input collection yields an active list
with no duplicates at every state reached with valid windows. -/
theorem active_nodup_of_wellformed (spans : List (Span α ι)) (c : Cursor α ι)
    (hwf : ∀ sp ∈ spans, WellFormed sp) (hnd : spans.Nodup)
    (h : ValidReaches spans c) : c.active.Nodup := by
  rw [List.nodup_iff_count_le_one] at hnd ⊢
  intro sp
  rw [countInv_validReaches hwf h sp]
  split
  · exact hnd sp
  · omega

/-- Witness for the amended C2 at a concrete cursor. -/
theorem active_nodup_of_wellformed_witness :
    ((Cursor.new [(⟨0, some 1, 0⟩ : Span ℤ ℕ)] (0:ℤ) 0).advance_to 0 2).active.Nodup :=
  active_nodup_of_wellformed _ _ (by decide) (by decide)
    (ValidReaches.step (by decide) (ValidReaches.base (by decide)))

/-- C3 counterexample: with the single well-formed span `[0, 100]` and the
strictly-forward move `[0,0] → [50,60]`, the window is past the maximum start
time (`0 < 50`), no span is open-ended, yet `is_finished` is false (the span
is still active). -/
theorem is_finished_past_max_start_counterexample :
    (∀ sp ∈ [(⟨0, some 100, 0⟩ : Span ℤ ℕ)], sp.stop ≠ none)
      ∧ (∀ sp ∈ [(⟨0, some 100, 0⟩ : Span ℤ ℕ)], sp.start < 50)
      ∧ ((0:ℤ) ≤ 0 ∧ (50:ℤ) ≤ 60 ∧ (0:ℤ) ≤ 50 ∧ (0:ℤ) < 60)
      ∧ ((Cursor.new [(⟨0, some 100, 0⟩ : Span ℤ ℕ)] (0:ℤ) 0).advance_to 50 60).is_finished
          = false := by
  decide

omit [DecidableEq ι] in
/-- C3 (amended): (1) at any state reached with valid windows, if no input
span is open-ended and the window's low bound is strictly past every start
time *and every end time*, then `is_finished` is true; (2) `is_finished` is
never true while an open-ended input span sits in the active set. -/
theorem is_finished_forward_semantics (spans : List (Span α ι)) :
    (∀ c : Cursor α ι, ValidReaches spans c →
        (∀ sp ∈ spans, sp.stop ≠ none) →
        (∀ sp ∈ spans, sp.start < c.current.1) →
        (∀ sp ∈ spans, ∀ e, sp.stop = some e → e < c.current.1) →
        c.is_finished = true)
      ∧ (∀ c : Cursor α ι, Reaches spans c →
          ∀ sp ∈ spans, sp.stop = none → sp ∈ c.active → c.is_finished = false) := by
  constructor
  · intro c h hopen hstart hend
    obtain ⟨h1, h2, h3, h4, h5⟩ := inv_reaches (validReaches_reaches h)
    have hwin := validReaches_window h
    have hempty : c.active = [] := by
      rw [List.eq_nil_iff_forall_not_mem]
      intro sp hsp
      obtain ⟨hmem, hel⟩ := (h5 sp).mp hsp
      cases hstop : sp.stop with
      | none => exact hopen sp hmem hstop
      | some e =>
        have he := hend sp hmem e hstop
        have hge := hel.2
        rw [hstop] at hge
        rw [show maybeInfinite (some e) = (e : WithTop α) from rfl, WithTop.coe_le_coe] at hge
        exact absurd he (not_lt.mpr hge)
    have hidx : c.next_start_idx = c.spans_start.length := by
      rw [h3, nextStartIdxSpec, firstIdxNot]
      have hall : c.spans_start.takeWhile (fun sp => decide (sp.start ≤ c.current.2))
          = c.spans_start := by
        rw [takeWhile_startLE _ (by rw [h1]; exact sortByStart_pairwise spans),
          List.filter_eq_self]
        intro sp hsp
        have hmem : sp ∈ spans := by
          rw [h1] at hsp
          exact (sortByStart_perm spans).mem_iff.mp hsp
        exact decide_eq_true (le_trans (le_of_lt (hstart sp hmem)) hwin)
      rw [hall]
    rw [Cursor.is_finished, hempty, hidx]
    simp
  · intro c _ sp _ _ hact
    rw [Cursor.is_finished]
    have hne : c.active.isEmpty = false := by
      rw [List.isEmpty_eq_false]
      intro hnil
      rw [hnil] at hact
      exact absurd hact (List.not_mem_nil sp)
    rw [hne]
    rfl

/-- Witness for the amended C3: a finite-span cursor advanced strictly past
every start and end is finished, and a cursor holding an open-ended active
span is not. -/
theorem is_finished_forward_semantics_witness :
    ((Cursor.new [(⟨0, some 1, 0⟩ : Span ℤ ℕ)] (0:ℤ) 0).advance_to 2 3).is_finished = true
      ∧ (Cursor.new [(⟨0, none, 0⟩ : Span ℤ ℕ)] (0:ℤ) 0).is_finished = false :=
  ⟨(is_finished_forward_semantics [(⟨0, some 1, 0⟩ : Span ℤ ℕ)]).1 _
      (ValidReaches.step (by decide) (ValidReaches.base (by decide)))
      (by decide) (by decide) (by decide),
    (is_finished_forward_semantics [(⟨0, none, 0⟩ : Span ℤ ℕ)]).2 _
      (Reaches.base 0 0) (⟨0, none, 0⟩ : Span ℤ ℕ) (by decide) (by decide) (by decide)⟩

/-- C4 counterexample: `advance_to` contains no assertion on window order —
called with the inverted window `[5, 2]` it silently proceeds, recording the
window and producing a well-defined (empty) active set, instead of failing. -/
theorem advance_to_inverted_silent :
    ((2:ℤ) < 5)
      ∧ ((Cursor.new [(⟨3, some 5, 0⟩ : Span ℤ ℕ)] (0:ℤ) 1).advance_to 5 2).current = (5, 2)
      ∧ ((Cursor.new [(⟨3, some 5, 0⟩ : Span ℤ ℕ)] (0:ℤ) 1).advance_to 5 2).active = [] := by
  decide

omit [DecidableEq ι] in
/-- C4 (amended): no cursor operation returns a recoverable error — the
operations are total functions into `Cursor` — and an inverted window is not
checked anywhere: `advance_to` with any `low > high` silently proceeds,
recording `current = (low, high)`. -/
theorem advance_to_no_error (c : Cursor α ι) (lo hi : α) :
    (c.advance_to lo hi).current = (lo, hi) :=
  advance_to_current c lo hi

/-- C5 counterexample: with the malformed span `(start 10, end 0)` and valid
windows throughout, the state at window `[0,20]` holds the span twice;
moving forward to `[1,21]` and back to `[0,20]` returns it only once, so the
round trip does not reproduce the active multiset. -/
theorem roundtrip_count_counterexample :
    ((5:ℤ) ≤ 5 ∧ (0:ℤ) ≤ 20 ∧ (1:ℤ) ≤ 21 ∧ (0:ℤ) ≤ 1 ∧ (20:ℤ) ≤ 21)
      ∧ ((Cursor.new [(⟨10, some 0, 0⟩ : Span ℤ ℕ)] (5:ℤ) 5).advance_to 0 20).active.count
          (⟨10, some 0, 0⟩ : Span ℤ ℕ) = 2
      ∧ ((((Cursor.new [(⟨10, some 0, 0⟩ : Span ℤ ℕ)] (5:ℤ) 5).advance_to 0 20).advance_to
            1 21).advance_to 0 20).active.count (⟨10, some 0, 0⟩ : Span ℤ ℕ) = 1 := by
  decide

/-- C5 (amended): provided every input span is well formed (a present end is
`≥` its start), moving any validly reached cursor forward to a window
`[lo, hi]` with `lo ≥ low`, `hi ≥ high`, `lo ≤ hi`, and then back to its
original window reproduces the original active multiset exactly. -/
theorem roundtrip_active_count_of_wellformed (spans : List (Span α ι)) (c : Cursor α ι)
    (hwf : ∀ sp ∈ spans, WellFormed sp) (h : ValidReaches spans c)
    (lo hi : α) (_hlo : c.current.1 ≤ lo) (_hhi : c.current.2 ≤ hi) (hw : lo ≤ hi)
    (sp : Span α ι) :
    (((c.advance_to lo hi).advance_to c.current.1 c.current.2).active).count sp
      = c.active.count sp := by
  have hw0 := validReaches_window h
  have h2 : ValidReaches spans ((c.advance_to lo hi).advance_to c.current.1 c.current.2) :=
    ValidReaches.step hw0 (ValidReaches.step hw h)
  rw [countInv_validReaches hwf h2 sp, countInv_validReaches hwf h sp, advance_to_current]

/-- Witness for the amended C5 at a concrete cursor and forward window. -/
theorem roundtrip_active_count_of_wellformed_witness :
    ((((Cursor.new [(⟨0, some 5, 0⟩ : Span ℤ ℕ)] (0:ℤ) 2).advance_to 1 3).advance_to
          (Cursor.new [(⟨0, some 5, 0⟩ : Span ℤ ℕ)] (0:ℤ) 2).current.1
          (Cursor.new [(⟨0, some 5, 0⟩ : Span ℤ ℕ)] (0:ℤ) 2).current.2).active).count
        (⟨0, some 5, 0⟩ : Span ℤ ℕ)
      = (Cursor.new [(⟨0, some 5, 0⟩ : Span ℤ ℕ)] (0:ℤ) 2).active.count
          (⟨0, some 5, 0⟩ : Span ℤ ℕ) :=
  roundtrip_active_count_of_wellformed _ _ (by decide) (ValidReaches.base (by decide))
    1 3 (by decide) (by decide) (by decide) _

omit [DecidableEq ι] in
/-- C7: cursors constructed from a span list and from any permutation of it,
given the same initial window and the same sequence of `advance_to` calls,
have the same active sets at every step. -/
theorem active_perm_independent (spans spans' : List (Span α ι))
    (hp : List.Perm spans spans') (lo hi : α) (ws : List (α × α)) (sp : Span α ι) :
    (sp ∈ (applyMoves (Cursor.new spans lo hi) ws).active
      ↔ sp ∈ (applyMoves (Cursor.new spans' lo hi) ws).active) := by
  have r1 : Reaches spans (applyMoves (Cursor.new spans lo hi) ws) :=
    reaches_applyMoves (Reaches.base lo hi) ws
  have r2 : Reaches spans' (applyMoves (Cursor.new spans' lo hi) ws) :=
    reaches_applyMoves (Reaches.base lo hi) ws
  have hcur : (applyMoves (Cursor.new spans lo hi) ws).current
      = (applyMoves (Cursor.new spans' lo hi) ws).current :=
    applyMoves_current_congr ws _ _ rfl
  rw [(inv_reaches r1).2.2.2.2 sp, (inv_reaches r2).2.2.2.2 sp, hp.mem_iff, hcur]

/-- Witness for C7 on a two-span list and its reversal. -/
theorem active_perm_independent_witness :
    ((⟨2, some 3, 1⟩ : Span ℤ ℕ)
        ∈ (applyMoves (Cursor.new [⟨0, some 1, 0⟩, ⟨2, some 3, 1⟩] (0:ℤ) 0)
            [((1:ℤ), (2:ℤ))]).active
      ↔ (⟨2, some 3, 1⟩ : Span ℤ ℕ)
          ∈ (applyMoves (Cursor.new [⟨2, some 3, 1⟩, ⟨0, some 1, 0⟩] (0:ℤ) 0)
              [((1:ℤ), (2:ℤ))]).active) :=
  active_perm_independent _ _ (by decide) 0 0 _ _

end Claims

end SpanCursor
